import Mathlib

/-!
Verification of the llama3 ring-attention module
(`src/nanotron/nn/llama3_ring_attention.py`).

The Python module is embedded shallowly:

* `llama3_flash_attn_prepare_cu_seqlens` works on integer boundary tensors;
  it is modelled on `List Nat`, with `Option` capturing the places where the
  Python code raises (failed `assert`, out-of-range indexing, `.max()` of an
  empty tensor).
* the tensor-layout operations of the forward pass and of the varlen-lse
  converters (`torch.cat`, slicing, `transpose`, `unsqueeze`, prefix
  assignment) are element-agnostic; they are modelled on nested lists over an
  arbitrary element type.
* the online-softmax merge arithmetic (`_update_out_and_lse`,
  `update_out_and_lse`) is modelled over exact real scalars, with tensors as
  index functions `Nat → Nat → Nat → ℝ`; `.to(torch.float32)` is the identity
  in the exact-arithmetic model.
* the communication schedulers `RingComm` / `AllGatherComm` are modelled as
  state machines over their queue fields; `Except` captures the
  `RuntimeError`s they raise.
-/

/-! ### Sequence partitioner: `llama3_flash_attn_prepare_cu_seqlens` (lines 10-60) -/

/-- `torch.searchsorted(c, v)` with the default `right=False`: the first index
`i` with `v ≤ c[i]`, or `c.length` when every entry is `< v`.  (The kernel is a
binary search; on the monotonically non-decreasing boundary tensors in scope
the two coincide, and we model it as the first qualifying index.) -/
def searchsorted : List Nat → Nat → Nat
  | [], _ => 0
  | x :: xs, v => if v ≤ x then 0 else searchsorted xs v + 1

/-- `t[1:] - t[:-1]`, the adjacent differences of a boundary tensor.
Subtraction on `Nat` truncates at zero where the Python tensor subtraction
would go negative; on the monotone boundary lists in scope they agree. -/
def adjacentDiffs (l : List Nat) : List Nat :=
  (l.zip l.tail).map fun p => p.2 - p.1

/-- `.max()` of an integer tensor; `none` models the `RuntimeError` that
torch raises when the tensor is empty. -/
def listMax? : List Nat → Option Nat
  | [] => none
  | x :: xs => some (xs.foldl Nat.max x)

/-- The value returned by `llama3_flash_attn_prepare_cu_seqlens`:
`(cu_seqlens_q, cu_seqlens_k, max_seqlen_q, max_seqlen_k, local_k_slice)`,
with the Python `slice(slice_left, slice_right)` split into its two bounds. -/
structure PrepareResult where
  cu_seqlens_q : List Nat
  cu_seqlens_k : List Nat
  max_seqlen_q : Nat
  max_seqlen_k : Nat
  slice_left : Nat
  slice_right : Nat
deriving DecidableEq

/-- Lines 37-41 of the source: `cu_seqlens_q` is the boundary slice for this
rank, shifted into local coordinates (`-= rank * length_per_rank`), with the
first entry pinned to `0` and the last pinned to `length_per_rank`. -/
def prepare_cu_q (s : List Nat) (shift lpr : Nat) : List Nat :=
  ((s.map fun x => x - shift).set 0 0).set ((s.map fun x => x - shift).length - 1) lpr

/-- Lines 43-55 of the source: `cu_seqlens_k` is the same boundary slice,
whose last entry is overwritten by `(rank+1) * length_per_rank` in causal
mode, shifted by `slice_left`. -/
def prepare_cu_k (s : List Nat) (causal : Bool) (cap slice_left : Nat) : List Nat :=
  (if causal then s.set (s.length - 1) cap else s).map fun x => x - slice_left

/-- Lines 10-60 of the source.  `none` models an exception:
empty `cu_seqlens` (`cu_seqlens[-1]` raises), `world_size = 0`
(`% 0` raises), the failed divisibility `assert`, an out-of-range index, or
`.max()` over an empty difference tensor.  The Python `left -= 1` can reach
`-1` only when `cu_seqlens[0] ≠ 0` at `rank*length_per_rank = 0`; on inputs
whose first boundary is `0` (the documented layout) the `Nat` truncation
below never fires, so indexing with `Nat` is faithful there. -/
def llama3_flash_attn_prepare_cu_seqlens (cu_seqlens : List Nat) (causal : Bool)
    (rank world_size : Nat) : Option PrepareResult :=
  cu_seqlens.getLast?.bind fun total =>
  if world_size = 0 then none
  else if total % world_size = 0 then
    let length_per_rank := total / world_size
    let left0 := searchsorted cu_seqlens (rank * length_per_rank)
    let right := searchsorted cu_seqlens ((rank + 1) * length_per_rank)
    cu_seqlens[left0]?.bind fun cl =>
    let left := if cl = rank * length_per_rank then left0 else left0 - 1
    let s := (cu_seqlens.drop left).take (right + 1 - left)
    (if causal then some ((rank + 1) * length_per_rank) else cu_seqlens[right]?).bind
      fun slice_right =>
    cu_seqlens[left]?.bind fun slice_left =>
    (listMax? (adjacentDiffs (prepare_cu_q s (rank * length_per_rank) length_per_rank))).bind
      fun max_seqlen_q =>
    (listMax? (adjacentDiffs
        (prepare_cu_k s causal ((rank + 1) * length_per_rank) slice_left))).bind
      fun max_seqlen_k =>
    some ⟨prepare_cu_q s (rank * length_per_rank) length_per_rank,
          prepare_cu_k s causal ((rank + 1) * length_per_rank) slice_left,
          max_seqlen_q, max_seqlen_k, slice_left, slice_right⟩
  else none

theorem searchsorted_le_length (c : List Nat) (v : Nat) : searchsorted c v ≤ c.length := by
  induction c with
  | nil => simp [searchsorted]
  | cons x xs ih =>
    simp only [searchsorted, List.length_cons]
    split
    · omega
    · omega

theorem searchsorted_lt_length (c : List Nat) (v : Nat) (j : Nat) (hj : j < c.length)
    (hv : v ≤ c.getD j 0) : searchsorted c v < c.length := by
  induction c generalizing j with
  | nil => simp at hj
  | cons x xs ih =>
    simp only [searchsorted, List.length_cons]
    split
    · omega
    · rename_i hx
      cases j with
      | zero => simp [List.getD] at hv; omega
      | succ j' =>
        have := ih j' (by simpa using hj) (by simpa [List.getD] using hv)
        omega

theorem searchsorted_getD (c : List Nat) (v : Nat) (h : searchsorted c v < c.length) :
    v ≤ c.getD (searchsorted c v) 0 := by
  induction c with
  | nil => simp at h
  | cons x xs ih =>
    simp only [searchsorted] at h ⊢
    split at h
    · rename_i hx; simp [searchsorted, hx, List.getD]
    · rename_i hx
      simp only [if_neg hx, List.getD_cons_succ]
      exact ih (by simpa using h)

theorem searchsorted_lt_elem (c : List Nat) (v j : Nat) (hj : j < searchsorted c v) :
    c.getD j 0 < v := by
  induction c generalizing j with
  | nil => simp [searchsorted] at hj
  | cons x xs ih =>
    simp only [searchsorted] at hj
    split at hj
    · omega
    · rename_i hx
      cases j with
      | zero => simp [List.getD]; omega
      | succ j' => simpa [List.getD] using ih j' (by omega)

theorem searchsorted_mono (c : List Nat) (v w : Nat) (hvw : v ≤ w) :
    searchsorted c v ≤ searchsorted c w := by
  induction c with
  | nil => simp [searchsorted]
  | cons x xs ih =>
    simp only [searchsorted]
    by_cases hw : w ≤ x
    · rw [if_pos (le_trans hvw hw), if_pos hw]
    · rw [if_neg hw]
      split
      · omega
      · omega

theorem pairwise_getD_mono (c : List Nat) (h : c.Pairwise (· ≤ ·)) (i j : Nat)
    (hij : i ≤ j) (hj : j < c.length) : c.getD i 0 ≤ c.getD j 0 := by
  rcases Nat.lt_or_ge i j with hlt | hge
  · have hi : i < c.length := lt_trans hlt hj
    have := (List.pairwise_iff_get.mp h) ⟨i, hi⟩ ⟨j, hj⟩ hlt
    rw [List.getD_eq_getElem _ _ hi, List.getD_eq_getElem _ _ hj]
    simpa [List.get_eq_getElem] using this
  · have : i = j := le_antisymm hij hge
    rw [this]

theorem adjacentDiffs_length (l : List Nat) : (adjacentDiffs l).length = l.length - 1 := by
  simp [adjacentDiffs, List.length_zip, List.length_tail]

theorem listMax?_of_ne_nil (l : List Nat) (h : l ≠ []) : ∃ m, listMax? l = some m := by
  cases l with
  | nil => simp at h
  | cons x xs => exact ⟨xs.foldl Nat.max x, rfl⟩

theorem prepare_cu_q_length (s : List Nat) (shift lpr : Nat) :
    (prepare_cu_q s shift lpr).length = s.length := by
  simp [prepare_cu_q]

theorem prepare_cu_q_head (s : List Nat) (shift lpr : Nat) (h : 2 ≤ s.length) :
    (prepare_cu_q s shift lpr)[0]? = some 0 := by
  unfold prepare_cu_q
  rw [List.getElem?_set_ne (by simp; omega)]
  rw [List.getElem?_set_self (by simp; omega)]

theorem prepare_cu_q_last (s : List Nat) (shift lpr : Nat) (h : 1 ≤ s.length) :
    (prepare_cu_q s shift lpr).getLast? = some lpr := by
  unfold prepare_cu_q
  rw [List.getLast?_eq_getElem?]
  simp only [List.length_set, List.length_map]
  rw [List.getElem?_set_self (by simp; omega)]

theorem prepare_cu_k_length (s : List Nat) (causal : Bool) (cap sl : Nat) :
    (prepare_cu_k s causal cap sl).length = s.length := by
  unfold prepare_cu_k; cases causal <;> simp

/-- C5: for `cu_seqlens = [0, 6, 16]`, `world_size = 2`, `causal = False`,
rank 0's `local_k_slice` upper bound is `16`, which is `cu_seqlens[right]`,
the end of the global sequence that last overlaps rank 0's query range. -/
theorem c5_theorem :
    (llama3_flash_attn_prepare_cu_seqlens [0, 6, 16] false 0 2).map
        PrepareResult.slice_right = some 16
      ∧ ([0, 6, 16] : List Nat).getD (searchsorted [0, 6, 16] ((0 + 1) * (16 / 2))) 0 = 16
      ∧ ([0, 6, 16] : List Nat).getLast? = some 16 := by
  refine ⟨rfl, rfl, rfl⟩

/-- C6: whenever `llama3_flash_attn_prepare_cu_seqlens` returns at all with
`causal = True`, the upper bound of `local_k_slice` is exactly
`(rank+1) * length_per_rank`, hence never exceeds it. -/
theorem c6_theorem (cu_seqlens : List Nat) (rank world_size total : Nat)
    (r : PrepareResult) (hlast : cu_seqlens.getLast? = some total)
    (h : llama3_flash_attn_prepare_cu_seqlens cu_seqlens true rank world_size = some r) :
    r.slice_right ≤ (rank + 1) * (total / world_size) := by
  unfold llama3_flash_attn_prepare_cu_seqlens at h
  rw [hlast] at h
  simp only [Option.some_bind] at h
  split at h
  · exact absurd h (by simp)
  · split at h
    · rcases hcl : cu_seqlens[searchsorted cu_seqlens (rank * (total / world_size))]? with
        _ | cl
      · rw [hcl] at h; exact absurd h (by simp)
      · rw [hcl] at h
        simp only [Option.some_bind, if_pos rfl] at h
        rcases hsl :
            cu_seqlens[if cl = rank * (total / world_size) then
              searchsorted cu_seqlens (rank * (total / world_size))
            else searchsorted cu_seqlens (rank * (total / world_size)) - 1]? with _ | sl
        · rw [hsl] at h; exact absurd h (by simp)
        · rw [hsl] at h
          simp only [Option.some_bind] at h
          rcases hmq : listMax? (adjacentDiffs (prepare_cu_q _ _ _)) with _ | mq
          · rw [hmq] at h; exact absurd h (by simp)
          · rw [hmq] at h
            simp only [Option.some_bind] at h
            rcases hmk : listMax? (adjacentDiffs (prepare_cu_k _ _ _ _)) with _ | mk
            · rw [hmk] at h; exact absurd h (by simp)
            · rw [hmk] at h
              simp only [Option.some_bind] at h
              have h' := Option.some.inj h
              subst h'
              exact Nat.le_refl _
    · exact absurd h (by simp)

/-- Witness for C6: the concrete spec scenario `cu_seqlens=[0,6,16]`,
`world_size=2`, rank 0, causal: the function succeeds and the key slice is
capped at `(0+1)*8 = 8`. -/
theorem c6_witness :
    ([0, 6, 16] : List Nat).getLast? = some 16
      ∧ llama3_flash_attn_prepare_cu_seqlens [0, 6, 16] true 0 2
          = some ⟨[0, 6, 8], [0, 6, 8], 6, 6, 0, 8⟩
      ∧ (⟨[0, 6, 8], [0, 6, 8], 6, 6, 0, 8⟩ : PrepareResult).slice_right
          ≤ (0 + 1) * (16 / 2) :=
  ⟨rfl, rfl, c6_theorem [0, 6, 16] 0 2 16 ⟨[0, 6, 8], [0, 6, 8], 6, 6, 0, 8⟩ rfl rfl⟩

/-- Counterexample for C1 as stated: `cu_seqlens = [0]` satisfies every
validity condition the claim lists (monotonically non-decreasing, first entry
`0`, `world_size = 1 ≥ 1`, `rank = 0 < 1`, and `cu_seqlens[-1] = 0` divisible
by `1`), yet the function returns nothing: `cu_seqlens_q` has a single entry,
so `(cu_seqlens_q[1:] - cu_seqlens_q[:-1]).max()` is `.max()` of an empty
tensor, which raises a `RuntimeError` (modelled as `none`). -/
theorem c1_counterexample :
    (([0] : List Nat).Pairwise (· ≤ ·) ∧ ([0] : List Nat).getD 0 0 = 0
        ∧ ([0] : List Nat).getLast? = some 0 ∧ 0 < 1 ∧ (0 : Nat) % 1 = 0)
      ∧ llama3_flash_attn_prepare_cu_seqlens [0] false 0 1 = none :=
  ⟨⟨by decide, rfl, rfl, by decide, rfl⟩, rfl⟩

/-- C1 (amended with `0 < total`): on valid inputs with a nonempty token
range, `llama3_flash_attn_prepare_cu_seqlens` succeeds, the returned
`cu_seqlens_q` starts at `0` and ends at `length_per_rank = total/world_size`
(a local query range of exactly that length), and the per-rank global query
ranges `[rank*length_per_rank, (rank+1)*length_per_rank)` partition
`[0, total)`: the ranges have length `length_per_rank`, their count times
that length is `total`, and every token index belongs to exactly one rank's
range. -/
theorem c1_theorem (cu_seqlens : List Nat) (causal : Bool)
    (rank world_size total : Nat)
    (hmono : cu_seqlens.Pairwise (· ≤ ·))
    (h0 : cu_seqlens.getD 0 0 = 0)
    (hlast : cu_seqlens.getLast? = some total)
    (hws : 0 < world_size) (hrank : rank < world_size)
    (hdiv : total % world_size = 0) (htot : 0 < total) :
    ((llama3_flash_attn_prepare_cu_seqlens cu_seqlens causal rank world_size).map
        fun r => (r.cu_seqlens_q[0]?, r.cu_seqlens_q.getLast?))
      = some (some 0, some (total / world_size))
    ∧ world_size * (total / world_size) = total
    ∧ (∀ t, t < total →
        t / (total / world_size) < world_size
        ∧ (t / (total / world_size)) * (total / world_size) ≤ t
        ∧ t < (t / (total / world_size) + 1) * (total / world_size)
        ∧ ∀ rk, rk * (total / world_size) ≤ t →
            t < (rk + 1) * (total / world_size) → rk = t / (total / world_size)) := by
  have hdvd : world_size ∣ total := Nat.dvd_of_mod_eq_zero hdiv
  have htoteq : world_size * (total / world_size) = total := Nat.mul_div_cancel' hdvd
  have hlprpos : 0 < total / world_size := by
    rcases Nat.eq_zero_or_pos (total / world_size) with hz | hp
    · rw [hz, Nat.mul_zero] at htoteq; omega
    · exact hp
  refine ⟨?_, htoteq, ?_⟩
  · -- evaluation of the function
    have hlast' : cu_seqlens[cu_seqlens.length - 1]? = some total := by
      rw [← List.getLast?_eq_getElem?]; exact hlast
    have hlen : 0 < cu_seqlens.length := by
      cases cu_seqlens with
      | nil => simp at hlast'
      | cons a as => simp
    have hlastD : cu_seqlens.getD (cu_seqlens.length - 1) 0 = total := by
      rw [List.getD_eq_getElem?_getD, hlast']; rfl
    unfold llama3_flash_attn_prepare_cu_seqlens
    rw [hlast]
    simp only [Option.some_bind]
    rw [if_neg (by omega : ¬ world_size = 0), if_pos hdiv]
    set lpr := total / world_size with hlpr_def
    set left0 := searchsorted cu_seqlens (rank * lpr) with hl0_def
    set right := searchsorted cu_seqlens ((rank + 1) * lpr) with hr_def
    -- arithmetic bounds on the two search targets
    have hmul : (rank + 1) * lpr = rank * lpr + lpr := by ring
    have hr2 : (rank + 1) * lpr ≤ total := by
      have := Nat.mul_le_mul_right lpr (show rank + 1 ≤ world_size by omega)
      calc (rank + 1) * lpr ≤ world_size * lpr := this
        _ = total := htoteq
    have hr1 : rank * lpr < total := by omega
    -- searchsorted results are in range
    have hL0 : left0 < cu_seqlens.length := by
      rw [hl0_def]
      exact searchsorted_lt_length _ _ (cu_seqlens.length - 1) (by omega) (by omega)
    have hR : right < cu_seqlens.length := by
      rw [hr_def]
      exact searchsorted_lt_length _ _ (cu_seqlens.length - 1) (by omega) (by omega)
    have hl0r : left0 ≤ right := by
      rw [hl0_def, hr_def]
      exact searchsorted_mono _ _ _ (by omega)
    have hclD : rank * lpr ≤ cu_seqlens.getD left0 0 := by
      rw [hl0_def]; exact searchsorted_getD _ _ (by rw [← hl0_def]; exact hL0)
    have hRD : (rank + 1) * lpr ≤ cu_seqlens.getD right 0 := by
      rw [hr_def]; exact searchsorted_getD _ _ (by rw [← hr_def]; exact hR)
    have hcl? : cu_seqlens[left0]? = some (cu_seqlens.getD left0 0) := by
      rw [List.getElem?_eq_getElem hL0, List.getD_eq_getElem _ _ hL0]
    rw [hcl?]
    simp only [Option.some_bind]
    -- resolve the decremented left index
    obtain ⟨left, hleft_eq, hleft_lt, hleft_le, hlr⟩ :
        ∃ left, (if cu_seqlens.getD left0 0 = rank * lpr then left0 else left0 - 1) = left
          ∧ left < cu_seqlens.length ∧ cu_seqlens.getD left 0 ≤ rank * lpr
          ∧ left < right := by
      by_cases hc : cu_seqlens.getD left0 0 = rank * lpr
      · refine ⟨left0, by rw [if_pos hc], hL0, le_of_eq hc, ?_⟩
        by_contra hnot
        push_neg at hnot
        have hmo := pairwise_getD_mono cu_seqlens hmono right left0 hnot hL0
        omega
      · have hpos : 0 < left0 := by
          by_contra hz
          push_neg at hz
          have h00 : left0 = 0 := by omega
          rw [h00] at hc hclD
          omega
        have hlt' : cu_seqlens.getD (left0 - 1) 0 < rank * lpr := by
          rw [hl0_def]
          exact searchsorted_lt_elem _ _ _ (by rw [← hl0_def]; omega)
        exact ⟨left0 - 1, by rw [if_neg hc], by omega, by omega, by omega⟩
    rw [hleft_eq]
    -- the boundary slice for this rank
    have hs_len : ((cu_seqlens.drop left).take (right + 1 - left)).length
        = right + 1 - left := by
      rw [List.length_take, List.length_drop]
      omega
    have hs2 : 2 ≤ ((cu_seqlens.drop left).take (right + 1 - left)).length := by omega
    -- slice_right resolves in both causal modes
    obtain ⟨sr, hsr⟩ :
        ∃ sr, (if causal then some ((rank + 1) * lpr) else cu_seqlens[right]?) = some sr := by
      cases causal with
      | false =>
        refine ⟨cu_seqlens.getD right 0, ?_⟩
        simp only [Bool.false_eq_true, if_false]
        rw [List.getElem?_eq_getElem hR, List.getD_eq_getElem _ _ hR]
      | true => exact ⟨(rank + 1) * lpr, by simp⟩
    rw [hsr]
    simp only [Option.some_bind]
    have hsl : cu_seqlens[left]? = some (cu_seqlens.getD left 0) := by
      rw [List.getElem?_eq_getElem hleft_lt, List.getD_eq_getElem _ _ hleft_lt]
    rw [hsl]
    simp only [Option.some_bind]
    -- both max computations succeed: the difference lists are nonempty
    obtain ⟨mq, hmq⟩ := listMax?_of_ne_nil
      (adjacentDiffs (prepare_cu_q ((cu_seqlens.drop left).take (right + 1 - left))
        (rank * lpr) lpr))
      (by
        apply List.ne_nil_of_length_pos
        rw [adjacentDiffs_length, prepare_cu_q_length]
        omega)
    rw [hmq]
    simp only [Option.some_bind]
    obtain ⟨mk, hmk⟩ := listMax?_of_ne_nil
      (adjacentDiffs (prepare_cu_k ((cu_seqlens.drop left).take (right + 1 - left))
        causal ((rank + 1) * lpr) (cu_seqlens.getD left 0)))
      (by
        apply List.ne_nil_of_length_pos
        rw [adjacentDiffs_length, prepare_cu_k_length]
        omega)
    rw [hmk]
    simp only [Option.some_bind, Option.map_some']
    rw [prepare_cu_q_head _ _ _ hs2, prepare_cu_q_last _ _ _ (by omega)]
  · -- the partition property
    intro t ht
    have hmul2 : ∀ k : Nat, (k + 1) * (total / world_size)
        = k * (total / world_size) + total / world_size := fun k => by ring
    refine ⟨?_, Nat.div_mul_le_self t _, ?_, ?_⟩
    · exact Nat.div_lt_of_lt_mul (by rw [Nat.mul_comm] at htoteq; omega)
    · have e1 := Nat.div_add_mod t (total / world_size)
      have e2 := Nat.mod_lt t hlprpos
      have e3 := hmul2 (t / (total / world_size))
      have e4 : (total / world_size) * (t / (total / world_size))
          = (t / (total / world_size)) * (total / world_size) := Nat.mul_comm _ _
      omega
    · intro rk hlo hhi
      exact (Nat.div_eq_of_lt_le hlo hhi).symm

/-- Witness for C1: the concrete layout `[0, 6, 16]` with `world_size = 2`,
`rank = 1`, causal, satisfies every hypothesis, the function succeeds with a
local query range `0 .. 8`, and token `9` belongs exactly to rank `9/8 = 1`. -/
theorem c1_witness :
    (([0, 6, 16] : List Nat).Pairwise (· ≤ ·) ∧ ([0, 6, 16] : List Nat).getD 0 0 = 0
        ∧ ([0, 6, 16] : List Nat).getLast? = some 16 ∧ 0 < 2 ∧ 1 < 2
        ∧ 16 % 2 = 0 ∧ 0 < 16)
      ∧ ((llama3_flash_attn_prepare_cu_seqlens [0, 6, 16] true 1 2).map
          fun r => (r.cu_seqlens_q[0]?, r.cu_seqlens_q.getLast?))
        = some (some 0, some (16 / 2))
      ∧ 2 * (16 / 2) = 16
      ∧ (9 : Nat) / (16 / 2) < 2
      ∧ (1 : Nat) = 9 / (16 / 2) := by
  have h := c1_theorem [0, 6, 16] true 1 2 16 (by decide) rfl rfl (by decide) (by decide)
    (by decide) (by decide)
  exact ⟨⟨by decide, rfl, rfl, by decide, by decide, by decide, by decide⟩,
    h.1, h.2.1, (h.2.2 9 (by decide)).1,
    (h.2.2 9 (by decide)).2.2.2 1 (by decide) (by decide)⟩

/-! ### Generic list-tensor lemmas -/

theorem getD_range_map {α : Type} (f : Nat → α) (n i : Nat) (d : α) (h : i < n) :
    ((List.range n).map f).getD i d = f i := by
  rw [List.getD_eq_getElem _ _ (by simpa using h)]
  simp

theorem getD_map_of_lt {α β : Type} (f : α → β) (l : List α) (i : Nat) (d : β) (d' : α)
    (h : i < l.length) : (l.map f).getD i d = f (l.getD i d') := by
  rw [List.getD_eq_getElem _ _ (by simpa using h), List.getD_eq_getElem _ _ h]
  simp

theorem getD_drop_take {α : Type} (l : List α) (a n i : Nat) (d : α) (h : i < n) :
    ((l.drop a).take n).getD i d = l.getD (a + i) d := by
  rw [List.getD_eq_getElem?_getD, List.getElem?_take, if_pos h, List.getElem?_drop,
    ← List.getD_eq_getElem?_getD]

theorem getD_flatten_offset {α : Type} (L : List (List α)) (w j : Nat) (d : α)
    (hw : w < L.length) (hj : j < (L.getD w []).length) :
    L.flatten.getD (((L.take w).map List.length).sum + j) d = (L.getD w []).getD j d := by
  induction L generalizing w with
  | nil => simp at hw
  | cons x xs ih =>
    cases w with
    | zero =>
      simp only [List.take_zero, List.map_nil, List.sum_nil, Nat.zero_add,
        List.flatten_cons, List.getD_cons_zero]
      exact List.getD_append _ _ _ _ (by simpa [List.getD] using hj)
    | succ w' =>
      simp only [List.take_succ_cons, List.map_cons, List.sum_cons, List.flatten_cons,
        List.getD_cons_succ]
      rw [show x.length + ((xs.take w').map List.length).sum + j
          = x.length + (((xs.take w').map List.length).sum + j) by omega]
      rw [List.getD_append_right _ _ _ _ (by omega)]
      rw [show x.length + (((xs.take w').map List.length).sum + j) - x.length
          = ((xs.take w').map List.length).sum + j by omega]
      exact ih w' (by simpa using hw) (by simpa [List.getD] using hj)

/-! ### Forward-pass result concatenation (lines 156-157) -/

/-- `torch.cat(out_list, dim=1)` on 3-D `(total_q, heads, head_dim)` tensors:
token rows are aligned and the per-window head lists are joined.  `torch.cat`
requires a non-empty list of tensors with equal non-concatenated dimensions;
the forward loop always contributes at least one block. -/
def cat3Dim1 {α : Type} (ts : List (List (List (List α)))) : List (List (List α)) :=
  (List.range ((ts.headD []).length)).map fun t => (ts.map fun u => u.getD t []).flatten

/-- `torch.cat(lse_list, dim=-2)` on the 2-D `(heads, total_q)` lse tensors
returned by the varlen flash-attention kernel: dim `-2` of a 2-D tensor is
dim `0`, so the blocks are stacked along the head dimension.  (In the legacy
3-D `(batch, heads, max_seqlen)` lse layout dim `-2` is the head dimension as
well.) -/
def cat2DimNeg2 {α : Type} (ts : List (List (List α))) : List (List α) :=
  ts.flatten

/-- Lines 156-157 of `llama3_flash_attn_varlen_forward`:
`out = torch.cat(out_list, dim=1)` and `lse = torch.cat(lse_list, dim=-2)`. -/
def llama3_varlen_forward_concat {α : Type} (out_list : List (List (List (List α))))
    (lse_list : List (List (List α))) : List (List (List α)) × List (List α) :=
  (cat3Dim1 out_list, cat2DimNeg2 lse_list)

/-- Modelled from the spec for C4: concatenating the 2-D `(heads, total_q)`
lse blocks "along the sequence dimension", i.e. along dim 1: head rows are
aligned and the per-window sequence segments are joined. -/
def catAlongSeqDimSpec {α : Type} (ts : List (List (List α))) : List (List α) :=
  (List.range ((ts.headD []).length)).map fun h => (ts.map fun u => u.getD h []).flatten

/-- Counterexample for C4 as stated: with two per-window lse blocks
`[[1,2]]` and `[[3,4]]` (one head each, two tokens), the code's
`torch.cat(lse_list, dim=-2)` stacks head rows, which differs from
concatenation along the sequence dimension. -/
theorem c4_counterexample :
    (llama3_varlen_forward_concat [[[[5]]]]
        ([[[1, 2]], [[3, 4]]] : List (List (List Nat)))).2 = [[1, 2], [3, 4]]
      ∧ catAlongSeqDimSpec ([[[1, 2]], [[3, 4]]] : List (List (List Nat)))
          = [[1, 2, 3, 4]]
      ∧ ([[1, 2], [3, 4]] : List (List Nat)) ≠ [[1, 2, 3, 4]] :=
  ⟨rfl, rfl, by decide⟩

/-- C4 (amended): after the loop the per-window outputs are concatenated
along the head dimension (dim 1): every token row of the result is the join
of that token's per-window head rows.  The per-window lse tensors are
concatenated along dim `-2`, which for the 2-D `(heads, total_q)` lse layout
is the head dimension, not the sequence dimension: window `w`'s head row `j`
lands at offset (number of head rows of windows before `w`) + `j`, with its
sequence axis untouched. -/
theorem c4_theorem {α : Type} (out_list : List (List (List (List α))))
    (lse_list : List (List (List α))) :
    (∀ t, t < (out_list.headD []).length →
        (llama3_varlen_forward_concat out_list lse_list).1[t]?
          = some ((out_list.map fun u => u.getD t []).flatten))
    ∧ (llama3_varlen_forward_concat out_list lse_list).2 = lse_list.flatten
    ∧ (∀ w j, w < lse_list.length → j < (lse_list.getD w []).length →
        (llama3_varlen_forward_concat out_list lse_list).2.getD
            (((lse_list.take w).map List.length).sum + j) []
          = (lse_list.getD w []).getD j []) := by
  refine ⟨?_, rfl, ?_⟩
  · intro t ht
    simp only [llama3_varlen_forward_concat, cat3Dim1]
    rw [List.getElem?_map, List.getElem?_range ht]
    rfl
  · intro w j hw hj
    exact getD_flatten_offset lse_list w j [] hw hj

/-- Witness for C4: one output window `[[[5]]]` and the two lse blocks of the
counterexample; window 1's head row lands at offset 1 of the concatenation. -/
theorem c4_witness :
    (0 < 1 ∧ 1 < 2 ∧ 0 < 2)
      ∧ (llama3_varlen_forward_concat [[[[5]]]]
            ([[[1, 2]], [[3, 4]]] : List (List (List Nat)))).1[0]?
          = some (([[[[5]]]].map fun u => u.getD 0 []).flatten)
      ∧ (llama3_varlen_forward_concat [[[[5]]]]
            ([[[1, 2]], [[3, 4]]] : List (List (List Nat)))).2
          = [[[1, 2]], [[3, 4]]].flatten
      ∧ (llama3_varlen_forward_concat [[[[5]]]]
            ([[[1, 2]], [[3, 4]]] : List (List (List Nat)))).2.getD
            ((([[[1, 2]], [[3, 4]]] : List (List (List Nat))).take 1).map
              List.length).sum []
          = (([[[1, 2]], [[3, 4]]] : List (List (List Nat))).getD 1 []).getD 0 [] := by
  have h := c4_theorem ([[[[5]]]] : List (List (List (List Nat)))) [[[1, 2]], [[3, 4]]]
  exact ⟨⟨by decide, by decide, by decide⟩, h.1 0 (by decide), h.2.1,
    h.2.2 1 0 (by decide) (by decide)⟩

/-! ### Varlen-lse layout converters (lines 723-740, the `torch.jit.script`
versions) -/

/-- `torch.cat(·, dim=1)` on 2-D tensors: head rows aligned, columns joined.
Used by `flatten_varlen_lse`; `torch.cat` of an empty list raises, which the
theorems exclude via `1 ≤ batch`. -/
def cat2Dim1 {α : Type} (ts : List (List (List α))) : List (List α) :=
  (List.range ((ts.headD []).length)).map fun h => (ts.map fun u => u.getD h []).flatten

/-- Lines 723-729: for each sequence `i`, append `lse[i, :, : end - start]`
(all heads, the valid column prefix), then `torch.cat(new_lse, dim=1)`.
Input layout `(batch, nheads, max_seqlen)`, output `(nheads, total)`. -/
def flatten_varlen_lse {α : Type} (lse : List (List (List α))) (cu_seqlens : List Nat) :
    List (List α) :=
  cat2Dim1 ((List.range (cu_seqlens.length - 1)).map fun i =>
    (lse.getD i []).map fun row =>
      row.take (cu_seqlens.getD (i + 1) 0 - cu_seqlens.getD i 0))

/-- `transpose` of a rectangular 2-D list tensor (default `d` is only read on
ragged input, which torch tensors cannot be). -/
def transpose2 {α : Type} (d : α) (m : List (List α)) : List (List α) :=
  (List.range ((m.headD []).length)).map fun j => m.map fun row => row.getD j d

/-- Lines 732-740, on the `(total, nheads, 1)` input layout the function is
written for (`num_head = lse.shape[-2]`, `lse[start:end]` slices tokens).
`torch.empty((num_seq, max_seqlen, num_head, 1))` is uninitialized memory,
modelled by the fill value `d`.  The loop writes the disjoint row blocks
`new_lse[i, : end - start] = lse[start:end]` independently and an exception
discards the result, so it is modelled per block via `mapM`: a block write
succeeds when the source row count matches the (possibly clipped) destination
prefix, or broadcasts from a single row; any other shape mismatch raises.
Finally `squeeze(dim=-1)` and `transpose(1, 2)` produce
`(num_seq, num_head, max_seqlen)`.

One iteration of the loop: the value of row block
`new_lse[i]` after `new_lse[i, : end - start] = lse[start:end]`.  The block
starts as `torch.empty` rows (fill `d`); the assignment succeeds when the
source row count matches the (possibly clipped) destination prefix, or
broadcasts from a single row; any other shape mismatch raises (`none`). -/
def unflattenBlock {α : Type} (d : α) (lse : List (List (List α)))
    (cu_seqlens : List Nat) (max_seqlen : Nat) (i : Nat) :
    Option (List (List (List α))) :=
  let start := cu_seqlens.getD i 0
  let stop := cu_seqlens.getD (i + 1) 0
  let src := (lse.drop start).take (stop - start)
  let len := min (stop - start) max_seqlen
  if src.length = len then
    some (src ++ (List.replicate max_seqlen
      (List.replicate ((lse.headD []).length) [d])).drop len)
  else if src.length = 1 then
    some (List.replicate len (src.headD []) ++ (List.replicate max_seqlen
      (List.replicate ((lse.headD []).length) [d])).drop len)
  else none

def unflatten_varlen_lse {α : Type} (d : α) (lse : List (List (List α)))
    (cu_seqlens : List Nat) (max_seqlen : Nat) : Option (List (List (List α))) :=
  ((List.range (cu_seqlens.length - 1)).mapM
    (unflattenBlock d lse cu_seqlens max_seqlen)).map
    fun new4 => new4.map fun mat =>
      transpose2 d (mat.map fun row => row.map fun cell => cell.headD d)

/-- The layout adapter the round-trip needs: `flatten_varlen_lse` produces a
packed `(nheads, total)` tensor, while `unflatten_varlen_lse` expects
`(total, nheads, 1)`; `transpose(0, 1)` then `unsqueeze(-1)`. -/
def toUnflattenLayout {α : Type} (d : α) (packed : List (List α)) :
    List (List (List α)) :=
  (transpose2 d packed).map fun row => row.map fun x => [x]

/-- Lines 732-740 executed on a raw 2-D `(nheads, total)` tensor — the shape
`flatten_varlen_lse` actually returns, and hence what the claim's literal
composition feeds in.  On a 2-D input `lse.shape[-2]` is dim 0 (the head
count) and `lse[start:end]` also slices dim 0, so the block assignment
`new_lse[i, : end - start] = lse[start:end]` sets a `(len, num_head, 1)`
region from a `(rows, width)` source; PyTorch broadcasting admits that only
when `width = 1` and the row count is `num_head` or `1`, and raises a
`RuntimeError` (modelled `none`) otherwise. -/
def unflatten_varlen_lse_on_2d {α : Type} (d : α) (lse : List (List α))
    (cu_seqlens : List Nat) (max_seqlen : Nat) : Option (List (List (List α))) :=
  ((List.range (cu_seqlens.length - 1)).mapM fun i =>
    let start := cu_seqlens.getD i 0
    let stop := cu_seqlens.getD (i + 1) 0
    let src := (lse.drop start).take (stop - start)
    let len := min (stop - start) max_seqlen
    let num_head := lse.length
    if (src.headD []).length = 1 ∧ (src.length = num_head ∨ src.length = 1) then
      some (List.replicate len
        (if src.length = num_head then src.map fun srow => [srow.headD d]
         else List.replicate num_head [(src.headD []).headD d])
        ++ (List.replicate max_seqlen (List.replicate num_head [d])).drop len)
    else none).map
    fun new4 => new4.map fun mat =>
      transpose2 d (mat.map fun row => row.map fun cell => cell.headD d)

/-- Counterexample for C7 as stated: for the valid padded lse `[[[1, 2]]]`
(one sequence of length 2, one head) with `cu_seqlens = [0, 2]` and
`max_seqlen = 2`, `flatten` returns the packed `(1, 2)` tensor `[[1, 2]]`,
and feeding that directly to `unflatten` raises a broadcast error instead of
restoring the original: the literal composition
`unflatten(flatten(lse, cu), cu, max)` does not hold. -/
theorem c7_counterexample :
    flatten_varlen_lse ([[[1, 2]]] : List (List (List Nat))) [0, 2] = [[1, 2]]
      ∧ unflatten_varlen_lse_on_2d 0 ([[1, 2]] : List (List Nat)) [0, 2] 2 = none :=
  ⟨rfl, rfl⟩

theorem headD_eq_getD {α : Type} (l : List α) (d : α) : l.headD d = l.getD 0 d := by
  cases l <;> rfl

theorem getD_take {α : Type} (l : List α) (n i : Nat) (d : α) (h : i < n) :
    (l.take n).getD i d = l.getD i d := by
  rw [List.getD_eq_getElem?_getD, List.getElem?_take, if_pos h,
    ← List.getD_eq_getElem?_getD]

theorem mapM_eq_some_map {α β : Type} (xs : List α) (f : α → Option β) (g : α → β)
    (h : ∀ x ∈ xs, f x = some (g x)) : xs.mapM f = some (xs.map g) := by
  induction xs with
  | nil => rfl
  | cons a as ih =>
    rw [List.mapM_cons, h a (by simp), ih (fun x hx => h x (by simp [hx]))]
    rfl

theorem transpose2_length {α : Type} (d : α) (m : List (List α)) :
    (transpose2 d m).length = (m.headD []).length := by
  simp [transpose2]

theorem transpose2_getD_getD {α : Type} (d : α) (m : List (List α)) (j i : Nat)
    (hj : j < (m.headD []).length) (hi : i < m.length) :
    ((transpose2 d m).getD j []).getD i d = (m.getD i []).getD j d := by
  unfold transpose2
  rw [getD_range_map _ _ _ _ hj, getD_map_of_lt _ _ _ _ [] hi]

theorem cu_telescope (cu : List Nat) (B : Nat) (h0 : cu.getD 0 0 = 0)
    (hstep : ∀ i, i < B → cu.getD i 0 ≤ cu.getD (i + 1) 0) :
    ∀ i, i ≤ B → ((List.range i).map
      (fun j => cu.getD (j + 1) 0 - cu.getD j 0)).sum = cu.getD i 0 := by
  intro i
  induction i with
  | zero => intro _; simpa using h0.symm
  | succ n ih =>
    intro hn
    rw [List.range_succ, List.map_append, List.sum_append, ih (by omega)]
    have := hstep n (by omega)
    simp only [List.map_cons, List.map_nil, List.sum_cons, List.sum_nil]
    omega

theorem cu_mono (cu : List Nat) (B : Nat)
    (hstep : ∀ i, i < B → cu.getD i 0 ≤ cu.getD (i + 1) 0) :
    ∀ k i, i + k ≤ B → cu.getD i 0 ≤ cu.getD (i + k) 0 := by
  intro k
  induction k with
  | zero => intro i _; simp
  | succ n ih =>
    intro i h
    calc cu.getD i 0 ≤ cu.getD (i + n) 0 := ih i (by omega)
      _ ≤ cu.getD (i + n + 1) 0 := hstep (i + n) (by omega)

/-- C7 (amended): the round trip holds once `flatten`'s packed `(nheads,
total)` output is converted into the `(total, nheads, 1)` layout `unflatten`
expects (`transpose(0,1)` + `unsqueeze(-1)`, `toUnflattenLayout`); the direct
composition of the claim instead raises a shape error
(`c7_counterexample`).  For every rectangular padded lse
`(batch, nheads, width)` with monotone `cu_seqlens` starting at `0`, widths
at least each true sequence length, and `max_seqlen` at least each true
length, the adapted round trip succeeds and agrees with the original at
every position inside each sequence's valid region. -/
theorem c7_theorem {α : Type} (d : α) (lse : List (List (List α)))
    (cu_seqlens : List Nat) (max_seqlen B H : Nat)
    (hB : cu_seqlens.length = B + 1) (hB1 : 1 ≤ B) (hH1 : 1 ≤ H)
    (h0 : cu_seqlens.getD 0 0 = 0)
    (hstep : ∀ i, i < B → cu_seqlens.getD i 0 ≤ cu_seqlens.getD (i + 1) 0)
    (hH : ∀ i, i < B → (lse.getD i []).length = H)
    (hrow : ∀ i h, i < B → h < H →
        cu_seqlens.getD (i + 1) 0 - cu_seqlens.getD i 0
          ≤ ((lse.getD i []).getD h []).length)
    (hmax : ∀ i, i < B →
        cu_seqlens.getD (i + 1) 0 - cu_seqlens.getD i 0 ≤ max_seqlen) :
    ∃ out,
      unflatten_varlen_lse d
          (toUnflattenLayout d (flatten_varlen_lse lse cu_seqlens))
          cu_seqlens max_seqlen = some out
      ∧ ∀ i h r, i < B → h < H →
          r < cu_seqlens.getD (i + 1) 0 - cu_seqlens.getD i 0 →
          ((out.getD i []).getD h []).getD r d
            = ((lse.getD i []).getD h []).getD r d := by
  have hB' : cu_seqlens.length - 1 = B := by omega
  have htel := cu_telescope cu_seqlens B h0 hstep
  have hcu_total : ∀ i, i ≤ B → cu_seqlens.getD i 0 ≤ cu_seqlens.getD B 0 := by
    intro i hi
    have := cu_mono cu_seqlens B hstep (B - i) i (by omega)
    rwa [show i + (B - i) = B from by omega] at this
  set P := flatten_varlen_lse lse cu_seqlens with hP_def
  set A := toUnflattenLayout d P with hA_def
  -- the list of per-sequence valid-prefix segments built by `flatten`
  have hseg : (((List.range (cu_seqlens.length - 1)).map fun i =>
      (lse.getD i []).map fun row =>
        row.take (cu_seqlens.getD (i + 1) 0 - cu_seqlens.getD i 0)).headD []).length
      = H := by
    rw [hB', headD_eq_getD, getD_range_map _ _ _ _ (show 0 < B by omega),
      List.length_map]
    exact hH 0 (by omega)
  have hP_len : P.length = H := by
    rw [hP_def]
    unfold flatten_varlen_lse cat2Dim1
    rw [List.length_map, List.length_range]
    exact hseg
  have hP_row : ∀ h, h < H → P.getD h [] = ((List.range B).map fun i =>
      ((lse.getD i []).getD h []).take
        (cu_seqlens.getD (i + 1) 0 - cu_seqlens.getD i 0)).flatten := by
    intro h hh
    rw [hP_def]
    unfold flatten_varlen_lse cat2Dim1
    rw [getD_range_map _ _ _ _ (show h < _ from hseg ▸ hh)]
    rw [hB', List.map_map]
    congr 1
    apply List.map_congr_left
    intro j hj
    have hjB : j < B := List.mem_range.mp hj
    simp only [Function.comp]
    exact getD_map_of_lt _ _ _ _ [] (show h < (lse.getD j []).length from
      (hH j hjB) ▸ hh)
  have hP_row_len : ∀ h, h < H → (P.getD h []).length = cu_seqlens.getD B 0 := by
    intro h hh
    rw [hP_row h hh, List.length_flatten, List.map_map]
    rw [List.map_congr_left (show ∀ j ∈ List.range B, (List.length ∘ fun i =>
        ((lse.getD i []).getD h []).take
          (cu_seqlens.getD (i + 1) 0 - cu_seqlens.getD i 0)) j
        = (fun j => cu_seqlens.getD (j + 1) 0 - cu_seqlens.getD j 0) j from by
      intro j hj
      have hjB := List.mem_range.mp hj
      simp only [Function.comp, List.length_take]
      exact min_eq_left (hrow j h hjB hh))]
    exact htel B (le_refl B)
  have hA_len : A.length = cu_seqlens.getD B 0 := by
    rw [hA_def]
    unfold toUnflattenLayout
    rw [List.length_map, transpose2_length, headD_eq_getD]
    exact hP_row_len 0 (by omega)
  have hA_row : ∀ g, g < cu_seqlens.getD B 0 →
      A.getD g [] = P.map fun row => [row.getD g d] := by
    intro g hg
    rw [hA_def]
    unfold toUnflattenLayout
    rw [getD_map_of_lt _ _ _ _ [] (show g < (transpose2 d P).length from by
      rw [transpose2_length, headD_eq_getD]
      exact (hP_row_len 0 (by omega)) ▸ hg)]
    unfold transpose2
    rw [getD_range_map _ _ _ _ (show g < (P.headD []).length from by
      rw [headD_eq_getD]
      exact (hP_row_len 0 (by omega)) ▸ hg)]
    rw [List.map_map]
    rfl
  -- every block write succeeds and is the source slice followed by padding
  have hblock : ∀ i ∈ List.range B,
      unflattenBlock d A cu_seqlens max_seqlen i
        = some (((A.drop (cu_seqlens.getD i 0)).take
            (cu_seqlens.getD (i + 1) 0 - cu_seqlens.getD i 0))
          ++ (List.replicate max_seqlen
            (List.replicate ((A.headD []).length) [d])).drop
            (min (cu_seqlens.getD (i + 1) 0 - cu_seqlens.getD i 0) max_seqlen)) := by
    intro i hi
    have hiB := List.mem_range.mp hi
    have hsrc : ((A.drop (cu_seqlens.getD i 0)).take
        (cu_seqlens.getD (i + 1) 0 - cu_seqlens.getD i 0)).length
        = min (cu_seqlens.getD (i + 1) 0 - cu_seqlens.getD i 0) max_seqlen := by
      rw [List.length_take, List.length_drop, hA_len]
      have h1 := hcu_total (i + 1) (by omega)
      have h2 := hstep i hiB
      have h3 := hmax i hiB
      omega
    unfold unflattenBlock
    simp only []
    rw [if_pos hsrc]
  refine ⟨(List.range B).map fun i => transpose2 d
      ((((A.drop (cu_seqlens.getD i 0)).take
          (cu_seqlens.getD (i + 1) 0 - cu_seqlens.getD i 0))
        ++ (List.replicate max_seqlen
          (List.replicate ((A.headD []).length) [d])).drop
          (min (cu_seqlens.getD (i + 1) 0 - cu_seqlens.getD i 0) max_seqlen)).map
        fun row => row.map fun cell => cell.headD d), ?_, ?_⟩
  · unfold unflatten_varlen_lse
    rw [hB', mapM_eq_some_map _ _ _ hblock]
    rw [Option.map_some']
    rw [List.map_map]
    rfl
  · intro i h r hi hh hr
    have hcu1 : cu_seqlens.getD (i + 1) 0 ≤ cu_seqlens.getD B 0 :=
      hcu_total (i + 1) (by omega)
    have hcu2 : cu_seqlens.getD i 0 ≤ cu_seqlens.getD (i + 1) 0 := hstep i hi
    have hgr : cu_seqlens.getD i 0 + r < cu_seqlens.getD B 0 := by omega
    have hsrc : ((A.drop (cu_seqlens.getD i 0)).take
        (cu_seqlens.getD (i + 1) 0 - cu_seqlens.getD i 0)).length
        = cu_seqlens.getD (i + 1) 0 - cu_seqlens.getD i 0 := by
      rw [List.length_take, List.length_drop, hA_len]
      omega
    rw [getD_range_map _ _ _ _ hi]
    set preM := ((A.drop (cu_seqlens.getD i 0)).take
        (cu_seqlens.getD (i + 1) 0 - cu_seqlens.getD i 0))
      ++ (List.replicate max_seqlen
        (List.replicate ((A.headD []).length) [d])).drop
        (min (cu_seqlens.getD (i + 1) 0 - cu_seqlens.getD i 0) max_seqlen)
      with hpreM_def
    have hpre_getD : ∀ r', r' < cu_seqlens.getD (i + 1) 0 - cu_seqlens.getD i 0 →
        preM.getD r' [] = A.getD (cu_seqlens.getD i 0 + r') [] := by
      intro r' hr'
      rw [hpreM_def, List.getD_append _ _ _ _ (by rw [hsrc]; exact hr'),
        getD_drop_take _ _ _ _ _ hr']
    have hpre_len : cu_seqlens.getD (i + 1) 0 - cu_seqlens.getD i 0 ≤ preM.length := by
      rw [hpreM_def, List.length_append, hsrc]
      omega
    have hMr : ∀ r', r' < cu_seqlens.getD (i + 1) 0 - cu_seqlens.getD i 0 →
        (preM.map fun row => row.map fun cell => cell.headD d).getD r' []
          = P.map fun row => row.getD (cu_seqlens.getD i 0 + r') d := by
      intro r' hr'
      rw [getD_map_of_lt _ _ _ _ [] (by omega), hpre_getD r' hr',
        hA_row _ (by omega), List.map_map]
      rfl
    have hM_head_len : (((preM.map fun row => row.map fun cell =>
        cell.headD d)).headD []).length = H := by
      rw [headD_eq_getD, hMr 0 (by omega), List.length_map]
      exact hP_len
    have hM_len : r < (preM.map fun row => row.map fun cell =>
        cell.headD d).length := by
      rw [List.length_map]
      omega
    rw [transpose2_getD_getD d _ h r (hM_head_len ▸ hh) hM_len]
    rw [hMr r hr]
    rw [getD_map_of_lt _ _ _ _ [] (hP_len ▸ hh)]
    rw [hP_row h hh]
    -- the packed offset of sequence i is cu_seqlens[i]
    have hoffset : ((((List.range B).map fun j =>
        ((lse.getD j []).getD h []).take
          (cu_seqlens.getD (j + 1) 0 - cu_seqlens.getD j 0)).take i).map
        List.length).sum = cu_seqlens.getD i 0 := by
      rw [← List.map_take, List.take_range, min_eq_left (by omega : i ≤ B),
        List.map_map]
      rw [List.map_congr_left (show ∀ j ∈ List.range i, (List.length ∘ fun j =>
          ((lse.getD j []).getD h []).take
            (cu_seqlens.getD (j + 1) 0 - cu_seqlens.getD j 0)) j
          = (fun j => cu_seqlens.getD (j + 1) 0 - cu_seqlens.getD j 0) j from by
        intro j hj
        have hji := List.mem_range.mp hj
        simp only [Function.comp, List.length_take]
        exact min_eq_left (hrow j h (by omega) hh))]
      exact htel i (by omega)
    have hflat := getD_flatten_offset ((List.range B).map fun j =>
        ((lse.getD j []).getD h []).take
          (cu_seqlens.getD (j + 1) 0 - cu_seqlens.getD j 0)) i r d
      (by rw [List.length_map, List.length_range]; omega)
      (by
        rw [getD_range_map _ _ _ _ hi, List.length_take]
        exact lt_min hr (lt_of_lt_of_le hr (hrow i h hi hh)))
    rw [hoffset] at hflat
    rw [hflat, getD_range_map _ _ _ _ hi, getD_take _ _ _ _ hr]

/-- Witness for C7: one sequence of length 2, one head, `cu_seqlens = [0, 2]`,
`max_seqlen = 2`; the adapted round trip restores the padded lse exactly. -/
theorem c7_witness :
    ([0, 2] : List Nat).length = 1 + 1
      ∧ unflatten_varlen_lse 0 (toUnflattenLayout 0
          (flatten_varlen_lse ([[[1, 2]]] : List (List (List Nat))) [0, 2])) [0, 2] 2
        = some [[[1, 2]]] := by
  refine ⟨rfl, ?_⟩
  obtain ⟨out, hout, hent⟩ := c7_theorem 0 ([[[1, 2]]] : List (List (List Nat)))
    [0, 2] 2 1 1 rfl (by decide) (by decide) rfl
    (by intro i hi; cases i with | zero => decide | succ n => omega)
    (by intro i hi; cases i with | zero => rfl | succ n => omega)
    (by
      intro i h hi hh
      cases i with
      | zero => cases h with | zero => decide | succ n => omega
      | succ n => omega)
    (by intro i hi; cases i with | zero => decide | succ n => omega)
  have hco : out = [[[1, 2]]] := Option.some.inj (hout.symm.trans (by rfl))
  rw [hco] at hout
  exact hout

/-! ### Online softmax merge (`_update_out_and_lse`, `update_out_and_lse`,
lines 681-720), over exact reals -/

/-- `F.sigmoid` over exact reals. -/
noncomputable def sigmoid (x : ℝ) : ℝ := 1 / (1 + Real.exp (-x))

/-- `F.logsigmoid` over exact reals: the log of the sigmoid (the PyTorch
kernel computes it in a numerically stable form, mathematically equal). -/
noncomputable def logsigmoid (x : ℝ) : ℝ := Real.log (sigmoid x)

/-- The elementwise arithmetic of line 696:
`out = out - F.sigmoid(block_lse - lse) * (out - block_out)`. -/
noncomputable def updateOutScalar (out lse block_out block_lse : ℝ) : ℝ :=
  out - sigmoid (block_lse - lse) * (out - block_out)

/-- The elementwise arithmetic of line 697:
`lse = lse - F.logsigmoid(lse - block_lse)`. -/
noncomputable def updateLseScalar (lse block_lse : ℝ) : ℝ :=
  lse - logsigmoid (lse - block_lse)

/-- Packed fp32 tensors `(total_q, nheads, ·)` as index functions. -/
def Tensor3R : Type := Nat → Nat → Nat → ℝ

/-- 2-D lse tensors `(nheads, total_q)` as index functions. -/
def Tensor2R : Type := Nat → Nat → ℝ

/-- `.to(torch.float32)`: the identity in the exact-real model. -/
def toFloat32 (x : Tensor3R) : Tensor3R := x

/-- `.transpose(-2, -1)` on a 2-D tensor. -/
def transposeLast2 (x : Tensor2R) : Tensor2R := fun a b => x b a

/-- `.unsqueeze(dim=-1)`: the trailing dimension has size 1; any index of it
reads the single entry, which is also how broadcasting against a
`(T, H, D)` tensor reads it. -/
def unsqueezeLast (x : Tensor2R) : Tensor3R := fun a b _ => x a b

/-- Lines 681-699 (`_update_out_and_lse`): cast `block_out` to fp32,
reshape `block_lse` from `(nheads, T)` to `(T, nheads, 1)`, then apply the
two elementwise updates; the `(T, H, 1)` factors broadcast along the last
dimension of the `(T, H, D)` output (read at index 0). -/
noncomputable def _update_out_and_lse (out lse block_out : Tensor3R)
    (block_lse : Tensor2R) : Tensor3R × Tensor3R :=
  (fun t h dd => updateOutScalar (out t h dd) (lse t h 0)
      (toFloat32 block_out t h dd) (unsqueezeLast (transposeLast2 block_lse) t h 0),
   fun t h dd => updateLseScalar (lse t h dd)
      (unsqueezeLast (transposeLast2 block_lse) t h dd))

/-- Lines 702-720 (`update_out_and_lse`): seeding, whole-tensor merge, and
sliced merge.  The slice is over the token dimension; `out[slice_] = ...`
writes the merged rows back in place, modelled by the returned functions
agreeing with the merge inside `[a, b)` and with the old accumulator
elsewhere.  `Except.error` models the `RuntimeError` of lines 710-711 (and
the `TypeError` Python would raise on subscripting a `None` lse). -/
noncomputable def update_out_and_lse (out lse : Option Tensor3R)
    (block_out : Tensor3R) (block_lse : Tensor2R) (slice_ : Option (Nat × Nat)) :
    Except String (Tensor3R × Tensor3R) :=
  match out with
  | none =>
    match slice_ with
    | some _ => .error "first update_out_and_lse should not pass slice_ args"
    | none => .ok (toFloat32 block_out, unsqueezeLast (transposeLast2 block_lse))
  | some o =>
    match lse with
    | none => .error "lse is missing"
    | some l =>
      match slice_ with
      | none => .ok (_update_out_and_lse o l block_out block_lse)
      | some (a, b) =>
        let p := _update_out_and_lse (fun t h dd => o (a + t) h dd)
          (fun t h dd => l (a + t) h dd) block_out block_lse
        .ok (fun t h dd => if a ≤ t ∧ t < b then p.1 (t - a) h dd else o t h dd,
             fun t h dd => if a ≤ t ∧ t < b then p.2 (t - a) h dd else l t h dd)

/-- One merge step on per-block scalar statistics `(out, lse)`. -/
noncomputable def mergeStep (acc blk : ℝ × ℝ) : ℝ × ℝ :=
  (updateOutScalar acc.1 acc.2 blk.1 blk.2, updateLseScalar acc.2 blk.2)

/-- Folding the merger over a sequence of per-block `(out, lse)` pairs: the
first block seeds the accumulator (lines 709-713), later blocks merge. -/
noncomputable def mergeAll (b : ℝ × ℝ) (bs : List (ℝ × ℝ)) : ℝ × ℝ :=
  bs.foldl mergeStep b

/-- The total softmax mass `Σ exp lse_i` of a set of blocks — the
normalizer of the single full-context computation. -/
noncomputable def expMass : List (ℝ × ℝ) → ℝ
  | [] => 0
  | p :: ps => Real.exp p.2 + expMass ps

/-- The mass-weighted output sum `Σ exp lse_i * out_i` of a set of blocks —
the numerator of the single full-context computation. -/
noncomputable def expMoment : List (ℝ × ℝ) → ℝ
  | [] => 0
  | p :: ps => Real.exp p.2 * p.1 + expMoment ps

theorem sigmoid_sub (a b : ℝ) :
    sigmoid (a - b) = Real.exp a / (Real.exp a + Real.exp b) := by
  unfold sigmoid
  rw [neg_sub, Real.exp_sub]
  have ha := Real.exp_ne_zero a
  have hb := Real.exp_ne_zero b
  have hab : Real.exp a + Real.exp b ≠ 0 := by positivity
  field_simp

theorem updateOutScalar_eq (o l bo bl : ℝ) :
    updateOutScalar o l bo bl
      = (Real.exp l * o + Real.exp bl * bo) / (Real.exp l + Real.exp bl) := by
  unfold updateOutScalar
  rw [sigmoid_sub]
  have hl := Real.exp_ne_zero l
  have hbl := Real.exp_ne_zero bl
  have h1 : Real.exp bl + Real.exp l ≠ 0 := by positivity
  have h2 : Real.exp l + Real.exp bl ≠ 0 := by positivity
  field_simp
  ring

theorem updateLseScalar_eq (l bl : ℝ) :
    updateLseScalar l bl = Real.log (Real.exp l + Real.exp bl) := by
  unfold updateLseScalar logsigmoid
  rw [sigmoid_sub]
  rw [Real.log_div (Real.exp_ne_zero l) (by positivity)]
  rw [Real.log_exp]
  ring

theorem expMass_nonneg (bs : List (ℝ × ℝ)) : 0 ≤ expMass bs := by
  induction bs with
  | nil => simp [expMass]
  | cons p ps ih =>
    simp only [expMass]
    have := Real.exp_pos p.2
    linarith

theorem mergeFold_char (bs : List (ℝ × ℝ)) : ∀ o l : ℝ,
    bs.foldl mergeStep (o, l)
      = ((Real.exp l * o + expMoment bs) / (Real.exp l + expMass bs),
         Real.log (Real.exp l + expMass bs)) := by
  induction bs with
  | nil =>
    intro o l
    simp only [List.foldl_nil, expMoment, expMass, add_zero, Prod.mk.injEq]
    constructor
    · rw [mul_comm, mul_div_assoc, div_self (Real.exp_ne_zero l), mul_one]
    · rw [Real.log_exp]
  | cons p ps ih =>
    intro o l
    rw [List.foldl_cons]
    have hstep : mergeStep (o, l) p
        = ((Real.exp l * o + Real.exp p.2 * p.1) / (Real.exp l + Real.exp p.2),
           Real.log (Real.exp l + Real.exp p.2)) := by
      unfold mergeStep
      rw [updateOutScalar_eq, updateLseScalar_eq]
    rw [hstep, ih]
    have hS : (0 : ℝ) < Real.exp l + Real.exp p.2 := by positivity
    rw [Real.exp_log hS]
    have hSne : Real.exp l + Real.exp p.2 ≠ 0 := ne_of_gt hS
    simp only [expMoment, expMass, Prod.mk.injEq]
    constructor
    · rw [mul_div_cancel₀ _ hSne]
      ring_nf
    · rw [add_assoc]

/-- C2: over exact real arithmetic the code's sigmoid/log-sigmoid update
(lines 696-697) equals the softmax-weighted convex combination and the true
log-sum-exp, and folding the merger over any nonempty sequence of per-block
`(out, lse)` pairs (the first block seeding, as `update_out_and_lse` does)
yields exactly the single full-context statistics over all blocks: the
mass-weighted mean `Σ exp(lse_i)·out_i / Σ exp(lse_i)` and
`log Σ exp(lse_i)`. -/
theorem c2_theorem :
    (∀ out lse block_out block_lse : ℝ,
        updateOutScalar out lse block_out block_lse
          = (Real.exp lse * out + Real.exp block_lse * block_out)
              / (Real.exp lse + Real.exp block_lse)
        ∧ updateLseScalar lse block_lse
          = Real.log (Real.exp lse + Real.exp block_lse))
    ∧ ∀ (b : ℝ × ℝ) (bs : List (ℝ × ℝ)),
        mergeAll b bs
          = (expMoment (b :: bs) / expMass (b :: bs),
             Real.log (expMass (b :: bs))) := by
  constructor
  · intro o l bo bl
    exact ⟨updateOutScalar_eq o l bo bl, updateLseScalar_eq l bl⟩
  · intro b bs
    unfold mergeAll
    rw [← Prod.mk.eta (p := b), mergeFold_char bs b.1 b.2]
    simp only [expMoment, expMass]

/-- C9: calling `update_out_and_lse` with a slice before any accumulator
exists (`out is None`) raises (lines 709-711); the first call without a
slice seeds the accumulator directly from the block — `block_out` cast to
float32 and `block_lse` transposed/unsqueezed, with no merge arithmetic
(lines 712-713). -/
theorem c9_theorem :
    (∀ (lse? : Option Tensor3R) (block_out : Tensor3R) (block_lse : Tensor2R)
        (s : Nat × Nat),
        update_out_and_lse none lse? block_out block_lse (some s)
          = .error "first update_out_and_lse should not pass slice_ args")
    ∧ ∀ (lse? : Option Tensor3R) (block_out : Tensor3R) (block_lse : Tensor2R),
        update_out_and_lse none lse? block_out block_lse none
          = .ok (toFloat32 block_out, unsqueezeLast (transposeLast2 block_lse)) :=
  ⟨fun _ _ _ _ => rfl, fun _ _ _ => rfl⟩

/-- C10: a sliced merge into an existing accumulator modifies exactly the
rows selected by `slice_`: outside `[a, b)` the returned tensors agree with
the incoming accumulator everywhere, and inside the slice they carry the
merge of the block into the corresponding accumulator rows (lines
714-717). -/
theorem c10_theorem (o l block_out : Tensor3R) (block_lse : Tensor2R) (a b : Nat) :
    ∃ o' l', update_out_and_lse (some o) (some l) block_out block_lse (some (a, b))
        = .ok (o', l')
      ∧ (∀ t h dd, t < a ∨ b ≤ t → o' t h dd = o t h dd ∧ l' t h dd = l t h dd)
      ∧ (∀ t h dd, a ≤ t → t < b →
          o' t h dd = updateOutScalar (o t h dd) (l t h 0)
              (toFloat32 block_out (t - a) h dd) (block_lse h (t - a))
          ∧ l' t h dd = updateLseScalar (l t h dd) (block_lse h (t - a))) := by
  refine ⟨_, _, rfl, ?_, ?_⟩
  · intro t h dd ht
    constructor
    · show (if a ≤ t ∧ t < b then _ else o t h dd) = o t h dd
      rw [if_neg (by omega)]
    · show (if a ≤ t ∧ t < b then _ else l t h dd) = l t h dd
      rw [if_neg (by omega)]
  · intro t h dd h1 h2
    constructor
    · show (if a ≤ t ∧ t < b then
          (_update_out_and_lse (fun t h dd => o (a + t) h dd)
            (fun t h dd => l (a + t) h dd) block_out block_lse).1 (t - a) h dd
        else o t h dd) = _
      rw [if_pos ⟨h1, h2⟩]
      simp only [_update_out_and_lse, toFloat32, unsqueezeLast, transposeLast2]
      rw [show a + (t - a) = t from by omega]
    · show (if a ≤ t ∧ t < b then
          (_update_out_and_lse (fun t h dd => o (a + t) h dd)
            (fun t h dd => l (a + t) h dd) block_out block_lse).2 (t - a) h dd
        else l t h dd) = _
      rw [if_pos ⟨h1, h2⟩]
      simp only [_update_out_and_lse, toFloat32, unsqueezeLast, transposeLast2]
      rw [show a + (t - a) = t from by omega]

/-- Zero accumulator tensor used to instantiate the frame theorem. -/
def zeroT3 : Tensor3R := fun _ _ _ => 0

/-- Zero 2-D lse block used to instantiate the frame theorem. -/
def zeroT2 : Tensor2R := fun _ _ => 0

/-- Witness for C10: slice `[0, 1)` of a zero accumulator; row 2 is outside
the slice and row 0 inside, and the call succeeds. -/
theorem c10_witness :
    ((2 : Nat) < 0 ∨ 1 ≤ 2) ∧ (0 : Nat) ≤ 0 ∧ (0 : Nat) < 1
      ∧ (update_out_and_lse (some zeroT3) (some zeroT3) zeroT3 zeroT2
          (some (0, 1))).toOption.isSome = true := by
  refine ⟨by omega, le_refl 0, by omega, ?_⟩
  obtain ⟨o', l', heq, hframe, hin⟩ := c10_theorem zeroT3 zeroT3 zeroT3 zeroT2 0 1
  have _h1 := (hframe 2 0 0 (by omega)).1
  have _h2 := (hin 0 0 0 (le_refl 0) (by omega)).1
  rw [heq]
  rfl

/-! ### Communication schedulers (`RingComm`, `AllGatherComm`,
lines 744-810) -/

/-- `RingComm` state: the queued `dist.P2POp`s (`(is_send, peer)` pairs
built by `send_recv`) and the in-flight requests of one committed wave
(`self._reqs`, `None` when no wave is committed). -/
structure RingComm where
  rank : Nat
  world_size : Nat
  send_rank : Nat
  recv_rank : Nat
  ops : List (Bool × Nat)
  reqs : Option (List (Bool × Nat))
deriving DecidableEq

/-- Lines 745-757 (`RingComm.__init__`): empty queues, peer ranks
`(rank ± 1) % world_size` (Python's signed `(rank - 1) % world_size` equals
`(rank + world_size - 1) % world_size` for `rank < world_size`);
`dist.get_global_rank` is the identity for the groups modelled here. -/
def RingComm.init (rank world_size : Nat) : RingComm :=
  { rank := rank, world_size := world_size,
    send_rank := (rank + 1) % world_size,
    recv_rank := (rank + world_size - 1) % world_size,
    ops := [], reqs := none }

/-- Lines 759-769 (`send_recv`): enqueue one isend/irecv pair. -/
def RingComm.send_recv (comm : RingComm) : RingComm :=
  { comm with ops := comm.ops ++ [(true, comm.send_rank), (false, comm.recv_rank)] }

/-- Lines 771-774 (`commit`): raises when a wave is already in flight,
otherwise batches the queued ops into requests. -/
def RingComm.commit (comm : RingComm) : Except String RingComm :=
  match comm.reqs with
  | some _ => .error "commit called twice"
  | none => .ok { comm with reqs := some comm.ops }

/-- Lines 776-782 (`wait`): raises when nothing was committed, otherwise
drains the wave and resets both queues. -/
def RingComm.wait (comm : RingComm) : Except String RingComm :=
  match comm.reqs with
  | none => .error "wait called before commit"
  | some _ => .ok { comm with reqs := none, ops := [] }

/-- `AllGatherComm` state (lines 796-808): the pending async handles. -/
structure AllGatherComm where
  handles : List Nat
deriving DecidableEq

/-- Line 797-799 (`__init__`): empty handle queue. -/
def AllGatherComm.init : AllGatherComm := ⟨[]⟩

/-- Lines 801-803 (`all_gather`): enqueue the async operation's handle. -/
def AllGatherComm.all_gather (comm : AllGatherComm) (handle : Nat) : AllGatherComm :=
  ⟨comm.handles ++ [handle]⟩

/-- Lines 805-808 (`wait`): block on every pending handle and clear the
queue.  There is no error path: with an empty queue the loop body never
runs and the call is a silent no-op. -/
def AllGatherComm.wait (comm : AllGatherComm) : Except String AllGatherComm :=
  .ok ⟨[]⟩

/-- Counterexample for C3 as stated: on the windowed all-gather scheduler,
`wait()` before any issue does not raise — it succeeds as a no-op — and so
does a second `wait()`; the claimed error contract holds only for the
point-to-point ring scheduler. -/
theorem c3_counterexample :
    AllGatherComm.wait AllGatherComm.init = Except.ok AllGatherComm.init
      ∧ (AllGatherComm.wait AllGatherComm.init).bind AllGatherComm.wait
          = Except.ok AllGatherComm.init :=
  ⟨rfl, rfl⟩

/-- C3 (amended): the error contract holds for the rotating point-to-point
ring scheduler (`RingComm`): `wait` before any `commit` raises, `commit`
twice without a drain raises, and a second `wait` without a fresh commit
raises.  The windowed all-gather scheduler (`AllGatherComm`) performs no
such checks: its `wait` always succeeds, clearing the queue. -/
theorem c3_theorem :
    (∀ rank world_size, RingComm.wait (RingComm.init rank world_size)
        = .error "wait called before commit")
    ∧ (∀ (comm : RingComm) (rs : List (Bool × Nat)),
        RingComm.commit { comm with reqs := some rs } = .error "commit called twice")
    ∧ (∀ comm : RingComm,
        (RingComm.commit { comm with reqs := none }).bind RingComm.commit
          = .error "commit called twice")
    ∧ (∀ (comm : RingComm) (rs : List (Bool × Nat)),
        (RingComm.wait { comm with reqs := some rs }).bind RingComm.wait
          = .error "wait called before commit")
    ∧ (∀ g : AllGatherComm, AllGatherComm.wait g = .ok AllGatherComm.init) :=
  ⟨fun _ _ => rfl, fun _ _ => rfl, fun _ => rfl, fun _ _ => rfl, fun _ => rfl⟩

/-! ### Backward-pass gradient buffer zeroing (lines 218-219) -/

/-- The flattened world-sized `dkv_buffer` as an index function. -/
def GradBuffer : Type := Nat → ℝ

/-- `dkv_buffer.zero_()` (line 219). -/
def zeroBuffer : GradBuffer := fun _ => 0

/-- The entries the external `_flash_attn_varlen_backward` call writes into
the buffer during one head-group window: `some v` where it stores `v`
(inside the `local_k_slice` view), `none` where it leaves the buffer
untouched. -/
def WindowWrites : Type := Nat → Option ℝ

/-- Apply one window's writes on top of a buffer state. -/
def applyWrites (buf : GradBuffer) (w : WindowWrites) : GradBuffer :=
  fun idx => (w idx).getD (buf idx)

/-- The backward loop's buffer trace (lines 218-219): each iteration first
runs `dkv_buffer.zero_()`, then the backward primitive applies its writes;
the listed states are the buffer contents each window's reduce-scatter
reads.  `buf` is the incoming buffer state (`torch.empty`: arbitrary). -/
def backwardBufTrace (buf : GradBuffer) : List WindowWrites → List GradBuffer
  | [] => []
  | w :: ws => applyWrites zeroBuffer w :: backwardBufTrace (applyWrites zeroBuffer w) ws

theorem backwardBufTrace_eq_map (buf : GradBuffer) (ws : List WindowWrites) :
    backwardBufTrace buf ws = ws.map (applyWrites zeroBuffer) := by
  induction ws generalizing buf with
  | nil => rfl
  | cons w ws ih =>
    simp only [backwardBufTrace, List.map_cons]
    rw [ih]

/-- C8: at the point window `i`'s reduce-scatter runs, every `dkv_buffer`
entry that window's backward invocation did not write is zero, and the
buffer state is independent of the initial buffer contents and of every
earlier window's writes — no stale dK/dV value from a prior window
contributes. -/
theorem c8_theorem (buf buf' : GradBuffer) (ws : List WindowWrites) (i : Nat)
    (w : WindowWrites) (hw : ws[i]? = some w) :
    (backwardBufTrace buf ws)[i]? = some (applyWrites zeroBuffer w)
      ∧ (∀ idx, w idx = none → applyWrites zeroBuffer w idx = 0)
      ∧ backwardBufTrace buf ws = backwardBufTrace buf' ws := by
  refine ⟨?_, ?_, ?_⟩
  · rw [backwardBufTrace_eq_map, List.getElem?_map, hw]
    rfl
  · intro idx hidx
    simp [applyWrites, hidx, zeroBuffer]
  · rw [backwardBufTrace_eq_map, backwardBufTrace_eq_map]

/-- A window whose backward call writes nothing, to instantiate the buffer
theorem. -/
def noWrites : WindowWrites := fun _ => none

/-- Witness for C8: a single window writing nothing on top of an arbitrary
prior state; entry 5 reads as zero at reduce-scatter time. -/
theorem c8_witness :
    ([noWrites][0]? = some noWrites) ∧ noWrites 5 = none
      ∧ (backwardBufTrace zeroBuffer [noWrites])[0]?
          = some (applyWrites zeroBuffer noWrites)
      ∧ applyWrites zeroBuffer noWrites 5 = 0 := by
  have h := c8_theorem zeroBuffer (fun _ => 1) [noWrites] 0 noWrites rfl
  exact ⟨rfl, rfl, h.1, h.2.1 5 rfl⟩
